import Mathlib

/-!
Verification development for the archive-np downloader (src/main.rs).

Rust strings are modelled as `List Char`; machine strings never wrap here so
no width arithmetic is needed.  External library behaviour (reqwest, the url
crate, Vec::dedup, Path::extension) is modelled at the granularity the source
uses it, as documented on each definition.
-/

/-- Rust char::is_whitespace, restricted to the ASCII range actually exercised
by the program (space, tab, carriage return, newline). -/
def rustIsWs (c : Char) : Bool := c.isWhitespace

/-- Rust str::trim_start : drop leading whitespace. -/
def rustTrimLeft (l : List Char) : List Char := l.dropWhile rustIsWs

/-- Rust str::trim_end : drop trailing whitespace. -/
def rustTrimRight (l : List Char) : List Char := (l.reverse.dropWhile rustIsWs).reverse

/-- Rust str::trim : drop whitespace at both ends. -/
def rustTrim (l : List Char) : List Char := rustTrimRight (rustTrimLeft l)

/-- Rust str::replace of a single char by the empty string: remove every
occurrence.  Models .replace of a newline by the empty string. -/
def removeNl (l : List Char) : List Char := l.filter (fun c => c ≠ '\n')

/-- ASCII lowercasing, modelling str::to_lowercase on the ASCII extensions the
program encounters. -/
def lowerA (l : List Char) : List Char := l.map Char.toLower

/-- Boolean substring containment, modelling str::contains. -/
def containsSub (needle hay : List Char) : Bool := decide (needle <:+: hay)

/-- PathBuf::join of a base directory and a relative component. -/
def pathJoin (base rel : List Char) : List Char := base ++ '/' :: rel

/-- Path::file_name of a path without trailing separators: the part after the
last separator. -/
def baseName (l : List Char) : List Char := (l.reverse.takeWhile (fun c => c ≠ '/')).reverse

/-- Volume record from src/main.rs lines 95-100. -/
structure Volume where
  title : Option (List Char)
  date : Option (List Char)
  id : List Char
deriving DecidableEq, Repr

/-- Helper for dedupRust: walk the tail comparing each element with the last
retained one, dropping it when the PartialEq on Volume (id equality,
lines 102-106) holds. -/
def dedupRustGo (lastKept : Volume) : List Volume → List Volume
  | [] => []
  | b :: rest => if lastKept.id = b.id then dedupRustGo lastKept rest else b :: dedupRustGo b rest

/-- Rust Vec::dedup on Vec of Volume: removes consecutive repeated elements,
keeping the first of each run, where the PartialEq impl (lines 102-106)
compares on the id field alone. -/
def dedupRust : List Volume → List Volume
  | [] => []
  | a :: rest => a :: dedupRustGo a rest

/-- Discovery loop of process_member (lines 132-157), one recursive step per
iteration of the while loop.  The listing endpoint is abstracted as a total
function from page number to the Volumes parsed from that page (the success
path of volume_from_member); fuel bounds the unrolling, none meaning the fuel
ran out before the loop exited.  Returns the accumulated Volumes and the
number of the last page fetched. -/
def process_member_loop_go (pagesf : Nat → List Volume) (limit : Option Nat) :
    Nat → Nat → Bool → Nat → List Volume → Option (List Volume × Nat)
  | 0, _, _, _, _ => none
  | fuel + 1, page, firstIter, numFound, acc =>
    if firstIter ∨ 0 < numFound then
      let pageVols := pagesf page
      let acc' := dedupRust (acc ++ pageVols)
      match limit with
      | some l =>
        if l ≤ acc'.length then some (acc'.take l, page)
        else process_member_loop_go pagesf limit fuel (page + 1) false pageVols.length acc'
      | none => process_member_loop_go pagesf limit fuel (page + 1) false pageVols.length acc'
    else some (acc, page - 1)

/-- Discovery loop entry: page = 1, first = true, num_found = 0, empty
accumulator (lines 132-135). -/
def process_member_loop (pagesf : Nat → List Volume) (limit : Option Nat) (fuel : Nat) :
    Option (List Volume × Nat) :=
  process_member_loop_go pagesf limit fuel 1 true 0 []

/-- Post-loop title filter of process_member (lines 159-162): Vec::retain
keeps Volumes whose title is present and matched by the compiled pattern;
the compiled regex is abstracted as a Boolean matcher. -/
def retainTitles (m : List Char → Bool) (vols : List Volume) : List Volume :=
  vols.filter (fun v => match v.title with | some t => m t | none => false)

/-- Matcher model for regex::Regex::is_match when the pattern is a literal
with case_insensitive(true) (main.rs lines 63-69): the lowercased pattern
occurs somewhere in the lowercased title. -/
def literalCI (pat t : List Char) : Bool := containsSub (lowerA pat) (lowerA t)

example : dedupRust [⟨none, none, ['a']⟩, ⟨none, none, ['a']⟩, ⟨none, none, ['b']⟩] =
    [⟨none, none, ['a']⟩, ⟨none, none, ['b']⟩] := by decide

example : retainTitles (literalCI "foo".toList)
    [⟨some "Foo".toList, none, ['1']⟩, ⟨some "bar".toList, none, ['2']⟩] =
    [⟨some "Foo".toList, none, ['1']⟩] := by decide

/-- Network error kind from the spec error taxonomy; transport failures and
rejected statuses both surface as this. -/
inductive NetErr where
  | network
deriving DecidableEq, Repr

/-- Outcome of one HTTP request at the transport level: either the transport
failed, or a response with a status code and a body arrived. -/
inductive HttpOutcome where
  | transportErr
  | response (status : Nat) (body : List Char)
deriving DecidableEq, Repr

/-- Model of the reqwest call chain send-then-text as used for listing and
detail pages: send errors only on transport failure, text returns the body
for any status code, which is never inspected. -/
def sendText : HttpOutcome → Except NetErr (List Char)
  | .transportErr => .error .network
  | .response _ body => .ok body

/-- Listing-page fetch of volume_from_member, lines 186-195: no status check. -/
def volume_from_member_fetch (o : HttpOutcome) : Except NetErr (List Char) := sendText o

/-- Detail-page fetch of download_np, lines 260-266: no status check. -/
def detail_fetch (o : HttpOutcome) : Except NetErr (List Char) := sendText o

/-- Model of reqwest StatusCode::error_for_status as called in download_image,
line 344: client errors (400-499) and server errors (500-599) become errors;
every other status, successful or not, passes the body through. -/
def sendBytesChecked : HttpOutcome → Except NetErr (List Char)
  | .transportErr => .error .network
  | .response s body => if 400 ≤ s ∧ s ≤ 599 then .error .network else .ok body

/-- Asset download, lines 330-351: fetch with error_for_status, then write the
received bytes to the destination path.  The second component is the file
write performed, if any. -/
def download_image (o : HttpOutcome) (path : List Char) :
    Except NetErr Unit × Option (List Char × List Char) :=
  match sendBytesChecked o with
  | .error e => (.error e, none)
  | .ok b => (.ok (), some (path, b))

/-- UTF-8 byte count of one scalar value, as used by Rust byte-indexed string
slicing. -/
def charSz (c : Char) : Nat :=
  if c.toNat ≤ 127 then 1 else if c.toNat ≤ 2047 then 2 else if c.toNat ≤ 65535 then 3 else 4

/-- Drop exactly n leading BYTES from a char list; none when n is not a char
boundary or exceeds the length (a Rust slice panic). -/
def byteDrop? : List Char → Nat → Option (List Char)
  | l, 0 => some l
  | [], _ + 1 => none
  | c :: cs, n + 1 =>
    if charSz c ≤ n + 1 then byteDrop? cs (n + 1 - charSz c) else none

/-- Take exactly n leading BYTES from a char list; none when n is not a char
boundary or exceeds the length (a Rust slice panic). -/
def byteTake? : List Char → Nat → Option (List Char)
  | _, 0 => some []
  | [], _ + 1 => none
  | c :: cs, n + 1 =>
    if charSz c ≤ n + 1 then (byteTake? cs (n + 1 - charSz c)).map (c :: ·) else none

/-- Rust byte-range slicing of a str: s[a..b].  none models the panic on an
out-of-range or non-boundary index. -/
def byteSlice? (l : List Char) (a b : Nat) : Option (List Char) :=
  if a ≤ b then (byteDrop? l a).bind (fun t => byteTake? t (b - a)) else none

/-- Result of extract_date: the normalized 8-char date, a ParseError when the
meta tag is absent, or a Rust panic from out-of-range byte slicing. -/
inductive DateResult where
  | ok (s : List Char)
  | parseErr
  | panicked
deriving DecidableEq, Repr

/-- extract_date, lines 373-390: the argument is the content attribute of the
first matching og:createdate meta tag (none when no tag matches).  The raw
value is trimmed, newlines removed, then byte ranges 0-4, 5-7, 8-10 are
concatenated; a range outside the string is a panic, not an error. -/
def extract_date (content : Option (List Char)) : DateResult :=
  match content with
  | none => .parseErr
  | some raw =>
    let d := removeNl (rustTrim raw)
    match byteSlice? d 0 4, byteSlice? d 5 7, byteSlice? d 8 10 with
    | some a, some b, some c => .ok (a ++ b ++ c)
    | _, _, _ => .panicked

/-- extract_title, lines 392-404: the argument is the content attribute of the
first matching nv:news:title meta tag; absence is a ParseError (none), else
the trimmed, newline-free title. -/
def extract_title (content : Option (List Char)) : Option (List Char) :=
  content.map (fun t => removeNl (rustTrim t))

example : extract_date (some "2023-05-07T11:22:33+09:00".toList) = .ok "20230507".toList := by
  decide

example : extract_date (some "2023".toList) = .panicked := by decide

example : extract_date none = .parseErr := by decide

/-- Rust Path::extension on the textual path p, lines 353-359: take the final
component (ignoring trailing separators), split at its last dot; none when
there is no dot, when the part before the last dot is empty (hidden files),
or for the special components dot and dot-dot. -/
def rustExtension? (s : List Char) : Option (List Char) :=
  let noSlash := (s.reverse.dropWhile (fun c => c = '/')).reverse
  let fname := (noSlash.reverse.takeWhile (fun c => c ≠ '/')).reverse
  if fname = [] ∨ fname = ['.'] ∨ fname = ['.', '.'] then none
  else
    let afterDotRev := fname.reverse.takeWhile (fun c => c ≠ '.')
    if afterDotRev.length = fname.length then none
    else if fname.length - afterDotRev.length = 1 then none
    else some afterDotRev.reverse

/-- extract_extension, lines 353-359: dot plus the lowercased extension, or
the empty string when the path has none. -/
def extract_extension (url : List Char) : List Char :=
  match rustExtension? url with
  | some e => '.' :: lowerA e
  | none => []

example : extract_extension "https://host/a/b.JPG".toList = ".jpg".toList := by decide
example : extract_extension "https://host/a/noext".toList = [] := by decide
example : extract_extension "https://host/a/.hidden".toList = [] := by decide

/-- Zero-padded 3-wide decimal rendering of n, modelling the format width
specifier 03 (numbers with more digits print in full). -/
def pad3 (n : Nat) : List Char :=
  let s := (toString n).toList
  List.replicate (3 - s.length) '0' ++ s

/-- Filename assigned to the asset with zero-based ordinal i, line 305:
date-id-title-imgNNN followed by the lowercased extension. -/
def assetFilename (date id title : List Char) (i : Nat) (url : List Char) : List Char :=
  date ++ '-' :: (id ++ '-' :: (title ++ '-' :: 'i' :: 'm' :: 'g' :: (pad3 (i + 1) ++ extract_extension url)))

/-- Filename-to-url task list built by enumerate-then-map (lines 303-307),
fixed before any transfer begins. -/
def assignedTasks (date id title : List Char) (imgs : List (List Char)) :
    List (List Char × List Char) :=
  imgs.enum.map (fun p => (assetFilename date id title p.1 p.2, p.2))

/-- Writes performed by buffer_unordered when transfers complete in the order
given by the index list: each completion writes to its pre-assigned filename. -/
def completedWrites (tasks : List (List Char × List Char)) (order : List Nat) :
    List (List Char × List Char) :=
  order.filterMap (fun i => tasks.get? i)

example : assignedTasks "d".toList "7".toList "t".toList ["u/a.JPG".toList] =
    [("d-7-t-img001.jpg".toList, "u/a.JPG".toList)] := by decide

/-- Split a char list at the first occurrence of sep: the part before, and
(when sep occurs) the part after. -/
def splitFirst (sep : Char) : List Char → List Char × Option (List Char)
  | [] => ([], none)
  | c :: rest =>
    if c = sep then ([], some rest)
    else
      let p := splitFirst sep rest
      (c :: p.1, p.2)

/-- Parsed URL record: the subset of the url crate data the program touches. -/
structure Url where
  scheme : List Char
  host : List Char
  path : List Char
  query : Option (List Char)
deriving DecidableEq, Repr

/-- Validity of a URL scheme: nonempty, leading letter, then letters, digits,
plus, minus or dot. -/
def schemeOk : List Char → Bool
  | [] => false
  | c :: rest =>
    c.isAlpha && (c :: rest).all (fun d => d.isAlpha || d.isDigit || d = '+' || d = '-' || d = '.')

/-- Model of reqwest::Url::parse for the absolute scheme-host-path-query URLs
the asset attributes carry: scheme and host are lowercased, the path keeps its
case, an empty path normalizes to a single slash.  Fragments, userinfo, ports,
percent- and IDNA-normalization are outside the shapes exercised and are not
modelled. -/
def urlParseTail (pre r : List Char) : Option Url :=
  let pq := splitFirst '?' r
  let hp := splitFirst '/' pq.1
  let host := hp.1
  let path := match hp.2 with
    | none => []
    | some p => '/' :: p
  if host = [] then none
  else some ⟨lowerA pre, lowerA host, (if path = [] then ['/'] else path), pq.2⟩

def urlParse? (l : List Char) : Option Url :=
  match splitFirst ':' l with
  | (pre, some rest) =>
    match rest with
    | '/' :: '/' :: r => if schemeOk pre then urlParseTail pre r else none
    | _ => none
  | (_, none) => none

/-- Serialization of a parsed URL, as produced by Url::as_str. -/
def urlToString (u : Url) : List Char :=
  u.scheme ++ ':' :: '/' :: '/' :: (u.host ++ u.path ++ (match u.query with
    | none => []
    | some q => '?' :: q))

/-- Query clearing plus trailing question-mark trim (lines 420-422): clear the
query pairs, serialize, and trim trailing question marks. -/
def stripQueryUrl (u : Url) : List Char :=
  ((urlToString { u with query := some [] }).reverse.dropWhile (fun c => c = '?')).reverse

/-- One img element of the parsed body fragment, in document order: whether it
matches each of the two class selectors, and its data-src attribute. -/
structure Img where
  seMediaImage : Bool
  imgAttachedfile : Bool
  dataSrc : Option (List Char)
deriving DecidableEq, Repr

/-- Trusted asset host substring checked at line 417. -/
def trustedHost : List Char := "post-phinf.pstatic.net".toList

/-- Candidate acceptance of lines 415-423: require the data-src attribute,
require the trusted substring somewhere in it, parse it as a URL (parse
failure silently drops the candidate), clear the query and trim. -/
def acceptUrl? (url : List Char) : Option (List Char) :=
  if containsSub trustedHost url then (urlParse? url).map stripQueryUrl else none

/-- find_images closure, lines 412-425: elements matching the selector, in
document order, through candidate acceptance. -/
def find_images (elems : List Img) (sel : Img → Bool) : List (List Char) :=
  (elems.filter sel).filterMap (fun e => e.dataSrc.bind acceptUrl?)

/-- extract_images, lines 406-434: primary selector family first, secondary
family only when the primary yields nothing. -/
def extract_images (elems : List Img) : List (List Char) :=
  let r1 := find_images elems (fun e => e.seMediaImage)
  if r1.isEmpty then find_images elems (fun e => e.imgAttachedfile) else r1

example : extract_images
    [⟨true, false, some "https://post-phinf.pstatic.net/x/a.jpg?type=w1200".toList⟩] =
    ["https://post-phinf.pstatic.net/x/a.jpg".toList] := by decide

example : extract_images
    [⟨true, false, some "https://evil.com/post-phinf.pstatic.net/a.jpg".toList⟩] =
    ["https://evil.com/post-phinf.pstatic.net/a.jpg".toList] := by decide

example : extract_images [⟨true, false, some "https://other.host/a.jpg".toList⟩] = [] := by decide

/-- Whether an Except value is an error. -/
def exceptIsErr : Except NetErr (List Char) → Bool
  | .error _ => true
  | .ok _ => false

/-- Filesystem operations performed by the download-and-commit phase of
download_np (lines 300-327), in program order. -/
inductive FsOp where
  | mkTempDir (t : List Char)
  | writeFile (p : List Char)
  | copyDirInto (src dst : List Char)
  | renameDir (src dst : List Char)
  | removeDir (t : List Char)
deriving DecidableEq, Repr

/-- Directory named by an operation that brings a directory into existence:
tempdir creation, fs_extra copy (which materializes dst slash basename of
src), and rename (which materializes its destination). -/
def createsDir : FsOp → Option (List Char)
  | .mkTempDir t => some t
  | .writeFile _ => none
  | .copyDirInto src dst => some (pathJoin dst (baseName src))
  | .renameDir _ dst => some dst
  | .removeDir _ => none

/-- Effect of one operation on the set of existing directory paths. -/
def applyOp (dirs : List (List Char)) : FsOp → List (List Char)
  | .mkTempDir t => t :: dirs
  | .writeFile _ => dirs
  | .copyDirInto src dst => pathJoin dst (baseName src) :: dirs
  | .renameDir src dst => dst :: dirs.erase src
  | .removeDir t => dirs.erase t

/-- Effect of an operation sequence on the set of existing directories. -/
def applyOps (dirs : List (List Char)) (ops : List FsOp) : List (List Char) :=
  ops.foldl applyOp dirs

/-- Download-and-commit phase of download_np, lines 300-327, as the operation
trace it performs.  tasks pairs each pre-assigned filename with the outcome of
its transfer; buffer_unordered completes every transfer before collect checks
for errors, so every successful transfer writes its file even when another
fails.  On any failure the error propagates and the scoped temporary
directory is discarded; on success the temp directory is copied under the
base directory and renamed onto the final path in one operation, then the
original temporary is discarded. -/
def download_phase (temp base finalPath : List Char)
    (tasks : List (List Char × Except NetErr (List Char))) : Bool × List FsOp :=
  let writes := tasks.filterMap (fun t =>
    match t.2 with
    | .ok _ => some (FsOp.writeFile (pathJoin temp t.1))
    | .error _ => none)
  if tasks.any (fun t => exceptIsErr t.2) then
    (false, FsOp.mkTempDir temp :: (writes ++ [FsOp.removeDir temp]))
  else
    (true, FsOp.mkTempDir temp :: (writes ++
      [FsOp.copyDirInto temp base,
       FsOp.renameDir (pathJoin base (baseName temp)) finalPath,
       FsOp.removeDir temp]))

/-- Detail-page document as the extractors see it: content attribute of the
first og:createdate meta tag, content attribute of the first nv:news:title
meta tag, and the img elements of the script-embedded body fragment in
document order. -/
structure Doc where
  dateContent : Option (List Char)
  titleContent : Option (List Char)
  body : List Img
deriving Repr

/-- Environment of one download_np run: the detail endpoint (fetch of lines
259-266 composed with the always-successful extract_real_body document parse)
and the asset endpoint keyed by URL.  Deterministic: the world does not change
between two runs. -/
structure Env where
  detailFetch : List Char → Except NetErr Doc
  assetFetch : List Char → Except NetErr (List Char)

/-- Terminal state of one download_np run. -/
inductive RunOutcome where
  | done
  | errored
  | panicked
deriving DecidableEq, Repr

/-- Result of one download_np run: outcome, final-path directories existing
afterwards, and the number of network requests performed. -/
structure RunRes where
  outcome : RunOutcome
  dirs : List (List Char)
  requests : Nat
deriving DecidableEq, Repr

/-- Rust is_ascii_digit over a whole date string, line 250 (vacuously true for
the empty string, as in the source). -/
def isNumericDate (d : List Char) : Bool := d.all Char.isDigit

/-- Destination directory path, lines 251 and 278: base joined with
date-id-title and a trailing separator. -/
def volPath (base date id title : List Char) : List Char :=
  pathJoin base (date ++ '-' :: (id ++ '-' :: (title ++ ['/'])))

/-- Skip check of lines 246-256: both metadata fields present, the date purely
numeric, and the computed destination already existing. -/
def skipCheck (base : List Char) (vol : Volume) (dirs : List (List Char)) : Bool :=
  match vol.title, vol.date with
  | some t, some d => isNumericDate d && decide (volPath base d vol.id t ∈ dirs)
  | _, _ => false

/-- download_np, lines 244-328, at the granularity of directory existence and
request count: skip check, detail fetch, metadata extraction, second skip
check, empty-asset early exit, asset downloads, and commit of the final
directory.  The temporary directory is scoped and never survives a run, so
only final destination paths are tracked here; the per-operation commit trace
is download_phase. -/
def download_np (env : Env) (base : List Char) (vol : Volume) (dirs : List (List Char)) :
    RunRes :=
  if skipCheck base vol dirs then ⟨.done, dirs, 0⟩
  else
    match env.detailFetch vol.id with
    | .error _ => ⟨.errored, dirs, 1⟩
    | .ok doc =>
      match extract_date doc.dateContent with
      | .panicked => ⟨.panicked, dirs, 1⟩
      | .parseErr => ⟨.errored, dirs, 1⟩
      | .ok date =>
        match extract_title doc.titleContent with
        | none => ⟨.errored, dirs, 1⟩
        | some title =>
          if volPath base date vol.id title ∈ dirs then ⟨.done, dirs, 1⟩
          else
            let imgs := extract_images doc.body
            if imgs.isEmpty then ⟨.done, dirs, 1⟩
            else
              if (imgs.map env.assetFetch).any exceptIsErr then
                ⟨.errored, dirs, 1 + imgs.length⟩
              else
                ⟨.done, volPath base date vol.id title :: dirs, 1 + imgs.length⟩

theorem digit_toNat_bounds (c : Char) (h : c.isDigit = true) : 48 ≤ c.toNat ∧ c.toNat ≤ 57 := by
  simp [Char.isDigit] at h
  obtain ⟨h1, h2⟩ := h
  rw [UInt32.le_def, BitVec.le_def] at h1 h2
  exact ⟨h1, h2⟩

theorem charSz_digit (c : Char) (h : c.isDigit = true) : charSz c = 1 := by
  have hb := digit_toNat_bounds c h
  simp only [charSz]
  rw [if_pos (by omega)]

theorem digit_not_ws (c : Char) (h : c.isDigit = true) : rustIsWs c = false := by
  by_contra hw
  rw [Bool.not_eq_false] at hw
  simp [rustIsWs, Char.isWhitespace] at hw
  rcases hw with ((rfl | rfl) | rfl) | rfl <;> exact absurd h (by decide)

theorem digit_ne_nl (c : Char) (h : c.isDigit = true) : c ≠ '\n' := by
  intro heq
  subst heq
  exact absurd h (by decide)

theorem rustTrimLeft_cons_of_not_ws (c : Char) (l : List Char) (h : rustIsWs c = false) :
    rustTrimLeft (c :: l) = c :: l := by
  simp [rustTrimLeft, List.dropWhile_cons, h]

theorem rustTrimRight_append_last (xs : List Char) (c : Char) (rest : List Char)
    (h : rustIsWs c = false) :
    rustTrimRight ((xs ++ [c]) ++ rest) = (xs ++ [c]) ++ rustTrimRight rest := by
  unfold rustTrimRight
  rw [List.reverse_append, List.dropWhile_append]
  by_cases he : (List.dropWhile rustIsWs rest.reverse).isEmpty = true
  · rw [if_pos he]
    rw [List.isEmpty_eq_true] at he
    rw [he]
    simp [List.dropWhile_cons, h]
  · rw [if_neg he]
    simp

theorem removeNl_append (xs ys : List Char) :
    removeNl (xs ++ ys) = removeNl xs ++ removeNl ys := by
  simp [removeNl, List.filter_append]

theorem removeNl_eq_self (xs : List Char) (h : ∀ c ∈ xs, c ≠ '\n') : removeNl xs = xs := by
  rw [removeNl, List.filter_eq_self]
  intro a ha
  simpa using h a ha

theorem byteDrop?_cons_one (c : Char) (l : List Char) (h : charSz c = 1) (n : Nat) :
    byteDrop? (c :: l) (n + 1) = byteDrop? l n := by
  simp [byteDrop?, h]

theorem byteTake?_cons_one (c : Char) (l : List Char) (h : charSz c = 1) (n : Nat) :
    byteTake? (c :: l) (n + 1) = (byteTake? l n).map (c :: ·) := by
  simp [byteTake?, h]

/-- Claim C5: the spec requires a malformed (too short) date metadata value to
produce an ExtractionError, but extract_date byte-slices the raw value at fixed
offsets, so the content string 2023 reaches an out-of-range slice and the
program panics instead of returning an error. -/
theorem C5_panic_on_short_date :
    extract_date (some "2023".toList) = .panicked
    ∧ extract_date (some "2023".toList) ≠ .parseErr
    ∧ ∀ s, extract_date (some "2023".toList) ≠ .ok s := by
  refine ⟨by decide, by decide, ?_⟩
  intro s hs
  rw [show extract_date (some "2023".toList) = .panicked from by decide] at hs
  exact DateResult.noConfusion hs

/-- Claim C2 counterexample: the listing-page fetch hands a status-500 body to
the parser as a success instead of failing with NetworkError, so not every
request treats a non-success HTTP status as an error. -/
theorem C2_counterexample :
    volume_from_member_fetch (.response 500 "oops".toList) = .ok "oops".toList
    ∧ volume_from_member_fetch (.response 500 "oops".toList) ≠ .error .network := by
  exact ⟨rfl, by simp [volume_from_member_fetch, sendText]⟩

/-- Claim C2 (amended): only the asset-byte requests inspect the HTTP status,
rejecting exactly client-error and server-error statuses (400-599) with
NetworkError and writing no file from such a response; bodies of other
statuses are written, and the listing-page and detail-page fetches return the
body for every status, failing only on transport errors. -/
theorem C2_status_handling :
    (∀ s b p, 400 ≤ s ∧ s ≤ 599 →
      download_image (.response s b) p = (.error .network, none))
    ∧ (∀ p, download_image .transportErr p = (.error .network, none))
    ∧ (∀ s b p, ¬(400 ≤ s ∧ s ≤ 599) →
      download_image (.response s b) p = (.ok (), some (p, b)))
    ∧ (∀ s b, volume_from_member_fetch (.response s b) = .ok b)
    ∧ (∀ s b, detail_fetch (.response s b) = .ok b)
    ∧ volume_from_member_fetch .transportErr = .error .network
    ∧ detail_fetch .transportErr = .error .network := by
  refine ⟨?_, ?_, ?_, ?_, ?_, rfl, rfl⟩
  · intro s b p h
    simp [download_image, sendBytesChecked, h]
  · intro p
    rfl
  · intro s b p h
    simp [download_image, sendBytesChecked, h]
  · intro s b
    rfl
  · intro s b
    rfl

theorem C2_status_handling_witness :
    download_image (.response 404 "nf".toList) "p".toList = (.error .network, none)
    ∧ download_image (.response 304 "x".toList) "p".toList =
        (.ok (), some ("p".toList, "x".toList)) :=
  ⟨C2_status_handling.1 404 "nf".toList "p".toList (by omega),
   C2_status_handling.2.2.1 304 "x".toList "p".toList (by omega)⟩

def vFoo : Volume := ⟨some "Foo".toList, none, "1".toList⟩

def vbarV : Volume := ⟨some "bar".toList, none, "2".toList⟩

def vFooBar : Volume := ⟨some "FooBar".toList, none, "3".toList⟩

/-- Claim C10: the post-discovery title filter keeps exactly the Volumes whose
present title the case-insensitive matcher accepts, drops every Volume with an
absent title, and preserves order (the result is a sublist); on titles Foo,
bar, FooBar with literal pattern foo, exactly Foo and FooBar survive in
order. -/
theorem C10_title_filter :
    (∀ (m : List Char → Bool) (vols : List Volume), (retainTitles m vols).Sublist vols)
    ∧ (∀ (m : List Char → Bool) (vols : List Volume) (v : Volume),
        v ∈ retainTitles m vols ↔ v ∈ vols ∧ ∃ t, v.title = some t ∧ m t = true)
    ∧ (∀ (m : List Char → Bool) (vols : List Volume) (v : Volume),
        v ∈ retainTitles m vols → v.title ≠ none)
    ∧ retainTitles (literalCI "foo".toList) [vFoo, vbarV, vFooBar] = [vFoo, vFooBar] := by
  refine ⟨?_, ?_, ?_, by decide⟩
  · intro m vols
    exact List.filter_sublist vols
  · intro m vols v
    rw [retainTitles, List.mem_filter]
    rcases v with ⟨title, date, id⟩
    cases title <;> simp
  · intro m vols v hv
    rcases v with ⟨title, date, id⟩
    cases title with
    | none =>
      rw [retainTitles, List.mem_filter] at hv
      simp at hv
    | some t => simp

theorem C10_title_filter_witness : vFoo.title ≠ none :=
  C10_title_filter.2.2.1 (literalCI "foo".toList) [vFoo] vFoo (by decide)

/-- Claim C9: for every raw date value beginning with a YYYY-MM-DD shaped
prefix (digits at offsets 0-3, 5-6, 8-9 and dashes at 4 and 7), extract_date
returns the 8-char form built from the characters at those fixed offsets,
whatever follows; in particular 2023-05-07T... normalizes to 20230507. -/
theorem C9_date_normalization :
    (∀ (c0 c1 c2 c3 c5 c6 c8 c9 : Char) (rest : List Char),
      c0.isDigit = true → c1.isDigit = true → c2.isDigit = true → c3.isDigit = true →
      c5.isDigit = true → c6.isDigit = true → c8.isDigit = true → c9.isDigit = true →
      extract_date (some (c0 :: c1 :: c2 :: c3 :: '-' :: c5 :: c6 :: '-' :: c8 :: c9 :: rest)) =
        .ok [c0, c1, c2, c3, c5, c6, c8, c9])
    ∧ extract_date (some "2023-05-07T11:22:33+09:00".toList) = .ok "20230507".toList := by
  refine ⟨?_, by decide⟩
  intro c0 c1 c2 c3 c5 c6 c8 c9 rest h0 h1 h2 h3 h5 h6 h8 h9
  have sz0 := charSz_digit c0 h0
  have sz1 := charSz_digit c1 h1
  have sz2 := charSz_digit c2 h2
  have sz3 := charSz_digit c3 h3
  have sz5 := charSz_digit c5 h5
  have sz6 := charSz_digit c6 h6
  have sz8 := charSz_digit c8 h8
  have szm : charSz '-' = 1 := by decide
  have hd : removeNl (rustTrim (c0 :: c1 :: c2 :: c3 :: '-' :: c5 :: c6 :: '-' :: c8 :: c9 :: rest)) =
      c0 :: c1 :: c2 :: c3 :: '-' :: c5 :: c6 :: '-' :: c8 :: c9 ::
        removeNl (rustTrimRight rest) := by
    rw [rustTrim, rustTrimLeft_cons_of_not_ws _ _ (digit_not_ws c0 h0)]
    rw [show (c0 :: c1 :: c2 :: c3 :: '-' :: c5 :: c6 :: '-' :: c8 :: c9 :: rest) =
        ([c0, c1, c2, c3, '-', c5, c6, '-', c8] ++ [c9]) ++ rest from by simp]
    rw [rustTrimRight_append_last _ _ _ (digit_not_ws c9 h9)]
    rw [show ([c0, c1, c2, c3, '-', c5, c6, '-', c8] ++ [c9]) ++ rustTrimRight rest =
        [c0, c1, c2, c3, '-', c5, c6, '-', c8, c9] ++ rustTrimRight rest from by simp]
    rw [removeNl_append, removeNl_eq_self]
    · simp
    · intro c hc
      simp at hc
      rcases hc with rfl | rfl | rfl | rfl | rfl | rfl | rfl | rfl | rfl | rfl
      · exact digit_ne_nl c h0
      · exact digit_ne_nl c h1
      · exact digit_ne_nl c h2
      · exact digit_ne_nl c h3
      · decide
      · exact digit_ne_nl c h5
      · exact digit_ne_nl c h6
      · decide
      · exact digit_ne_nl c h8
      · exact digit_ne_nl c h9
  have s1 : byteSlice? (c0 :: c1 :: c2 :: c3 :: '-' :: c5 :: c6 :: '-' :: c8 :: c9 ::
      removeNl (rustTrimRight rest)) 0 4 = some [c0, c1, c2, c3] := by
    simp [byteSlice?, byteDrop?, byteTake?, sz0, sz1, sz2, sz3]
  have s2 : byteSlice? (c0 :: c1 :: c2 :: c3 :: '-' :: c5 :: c6 :: '-' :: c8 :: c9 ::
      removeNl (rustTrimRight rest)) 5 7 = some [c5, c6] := by
    simp [byteSlice?, byteDrop?, byteTake?, sz0, sz1, sz2, sz3, szm, sz5, sz6]
  have s3 : byteSlice? (c0 :: c1 :: c2 :: c3 :: '-' :: c5 :: c6 :: '-' :: c8 :: c9 ::
      removeNl (rustTrimRight rest)) 8 10 = some [c8, c9] := by
    simp [byteSlice?, byteDrop?, byteTake?, sz0, sz1, sz2, sz3, szm, sz5, sz6, sz8,
      charSz_digit c9 h9]
  simp [extract_date, hd, s1, s2, s3]

theorem C9_date_normalization_witness :
    extract_date (some ('2' :: '0' :: '2' :: '3' :: '-' :: '0' :: '5' :: '-' :: '0' :: '7' ::
      "T09:00:00".toList)) = .ok ['2', '0', '2', '3', '0', '5', '0', '7'] :=
  C9_date_normalization.1 '2' '0' '2' '3' '0' '5' '0' '7' "T09:00:00".toList
    (by decide) (by decide) (by decide) (by decide) (by decide) (by decide) (by decide) (by decide)

theorem dedupRustGo_sublist : ∀ (l : List Volume) (lastV : Volume),
    (dedupRustGo lastV l).Sublist l := by
  intro l
  induction l with
  | nil => intro lastV; simp [dedupRustGo]
  | cons b rest ih =>
    intro lastV
    rw [dedupRustGo]
    by_cases h : lastV.id = b.id
    · rw [if_pos h]
      exact (ih lastV).cons b
    · rw [if_neg h]
      exact (ih b).cons₂ b

/-- Adjacency-grouped lists of Volumes: every repetition of an id occurs in a
single run of consecutive elements.  This is the hypothesis under which
Vec::dedup removes all duplicates. -/
inductive GroupedVols : List Volume → Prop
  | nil : GroupedVols []
  | single (a : Volume) : GroupedVols [a]
  | consEq (a b : Volume) (t : List Volume) :
      a.id = b.id → GroupedVols (b :: t) → GroupedVols (a :: b :: t)
  | consNe (a b : Volume) (t : List Volume) :
      a.id ≠ b.id → (∀ v ∈ b :: t, v.id ≠ a.id) → GroupedVols (b :: t) →
      GroupedVols (a :: b :: t)

theorem GroupedVols.replaceHead (a b : Volume) (t : List Volume) (hid : a.id = b.id)
    (h : GroupedVols (b :: t)) : GroupedVols (a :: t) := by
  cases h with
  | single _ => exact .single a
  | consEq _ c t' hbc hg => exact .consEq a c t' (hid.trans hbc) hg
  | consNe _ c t' hbc hnin hg =>
    refine .consNe a c t' (fun he => hbc (hid.symm.trans he)) ?_ hg
    intro v hv he
    exact hnin v hv (he.trans hid)

theorem find?_cons_eq_of_false (p : Volume → Bool) (a : Volume) (l : List Volume)
    (h : p a = false) : List.find? p (a :: l) = List.find? p l :=
  List.find?_cons_of_neg l (by simp [h])

theorem find?_cons_eq_of_true (p : Volume → Bool) (a : Volume) (l : List Volume)
    (h : p a = true) : List.find? p (a :: l) = some a :=
  List.find?_cons_of_pos l h

theorem dedupRustGo_spec : ∀ (l : List Volume) (lastV : Volume), GroupedVols (lastV :: l) →
    (((lastV :: dedupRustGo lastV l).map Volume.id).Nodup
    ∧ (∀ v ∈ lastV :: l, ∃ w ∈ lastV :: dedupRustGo lastV l, w.id = v.id)
    ∧ (∀ w ∈ dedupRustGo lastV l, w.id ≠ lastV.id
        ∧ (lastV :: l).find? (fun x => decide (x.id = w.id)) = some w)) := by
  intro l
  induction l with
  | nil =>
    intro lastV _
    refine ⟨by simp [dedupRustGo], ?_, by simp [dedupRustGo]⟩
    intro v hv
    simp at hv
    exact ⟨lastV, by simp, by rw [hv]⟩
  | cons b rest ih =>
    intro lastV hg
    by_cases h : lastV.id = b.id
    · have hgb : GroupedVols (b :: rest) := by
        cases hg with
        | consEq _ _ _ _ hg' => exact hg'
        | consNe _ _ _ hne _ _ => exact absurd h hne
      have hgl : GroupedVols (lastV :: rest) := GroupedVols.replaceHead lastV b rest h hgb
      obtain ⟨ih1, ih2, ih3⟩ := ih lastV hgl
      have hgo : dedupRustGo lastV (b :: rest) = dedupRustGo lastV rest := by
        rw [dedupRustGo, if_pos h]
      rw [hgo]
      refine ⟨ih1, ?_, ?_⟩
      · intro v hv
        rcases (by simpa using hv : v = lastV ∨ v = b ∨ v ∈ rest) with hveq | hveq | hv'
        · exact ⟨lastV, by simp, by rw [hveq]⟩
        · exact ⟨lastV, by simp, by rw [hveq]; exact h⟩
        · exact ih2 v (by simp [hv'])
      · intro w hw
        obtain ⟨hne, hfind⟩ := ih3 w hw
        have hpl : decide (lastV.id = w.id) = false := by
          simp
          exact fun he => hne he.symm
        have hpb : decide (b.id = w.id) = false := by
          simp
          exact fun he => hne (he.symm.trans h.symm)
        refine ⟨hne, ?_⟩
        rw [find?_cons_eq_of_false (fun x => decide (x.id = w.id)) lastV rest hpl] at hfind
        rw [find?_cons_eq_of_false (fun x => decide (x.id = w.id)) lastV (b :: rest) hpl,
          find?_cons_eq_of_false (fun x => decide (x.id = w.id)) b rest hpb]
        exact hfind
    · have hnin : ∀ v ∈ b :: rest, v.id ≠ lastV.id := by
        cases hg with
        | consEq _ _ _ heq _ => exact absurd heq h
        | consNe _ _ _ _ hnin' _ => exact hnin'
      have hgb : GroupedVols (b :: rest) := by
        cases hg with
        | consEq _ _ _ heq _ => exact absurd heq h
        | consNe _ _ _ _ _ hg' => exact hg'
      obtain ⟨ih1, ih2, ih3⟩ := ih b hgb
      have hgo : dedupRustGo lastV (b :: rest) = b :: dedupRustGo b rest := by
        rw [dedupRustGo, if_neg h]
      rw [hgo]
      have hmemrest : ∀ w ∈ b :: dedupRustGo b rest, w ∈ b :: rest := by
        intro w hw
        rcases (by simpa using hw : w = b ∨ w ∈ dedupRustGo b rest) with hweq | hw'
        · simp [hweq]
        · exact List.mem_cons_of_mem b ((dedupRustGo_sublist rest b).mem hw')
      refine ⟨?_, ?_, ?_⟩
      · rw [List.map_cons, List.nodup_cons]
        refine ⟨?_, ih1⟩
        intro hmem
        rw [List.mem_map] at hmem
        obtain ⟨w, hw, hwid⟩ := hmem
        exact hnin w (hmemrest w hw) hwid
      · intro v hv
        rcases (by simpa using hv : v = lastV ∨ v = b ∨ v ∈ rest) with hveq | hveq | hv'
        · exact ⟨lastV, by simp, by rw [hveq]⟩
        · obtain ⟨w, hw, hwid⟩ := ih2 b (by simp)
          exact ⟨w, List.mem_cons_of_mem lastV hw, by rw [hveq]; exact hwid⟩
        · obtain ⟨w, hw, hwid⟩ := ih2 v (by simp [hv'])
          exact ⟨w, List.mem_cons_of_mem lastV hw, hwid⟩
      · intro w hw
        have hwne : w.id ≠ lastV.id := hnin w (hmemrest w hw)
        have hpl : decide (lastV.id = w.id) = false := by
          simp
          exact fun he => hwne he.symm
        refine ⟨hwne, ?_⟩
        rw [find?_cons_eq_of_false (fun x => decide (x.id = w.id)) lastV (b :: rest) hpl]
        rcases (by simpa using hw : w = b ∨ w ∈ dedupRustGo b rest) with hweq | hw'
        · rw [hweq]
          exact find?_cons_eq_of_true (fun x => decide (x.id = b.id)) b rest (by simp)
        · exact (ih3 w hw').2

def volA1 : Volume := ⟨some "T1".toList, some "20230101".toList, "a".toList⟩

def volB1 : Volume := ⟨some "T2".toList, some "20230102".toList, "b".toList⟩

def volA2 : Volume := ⟨some "T3".toList, some "20230103".toList, "a".toList⟩

/-- Listing pages realizing a non-adjacent duplicate id across page
boundaries: page 1 yields ids a, b; page 2 yields id a again; page 3 is
empty. -/
def pagesC1 : Nat → List Volume := fun p =>
  if p = 1 then [volA1, volB1] else if p = 2 then [volA2] else []

/-- Claim C1 counterexample: accumulating pages a,b then a with the dedup of
the discovery loop leaves id a present twice, because Vec::dedup removes only
consecutive duplicates; the claimed each-id-exactly-once property fails for a
non-adjacent repeat. -/
theorem C1_counterexample :
    process_member_loop pagesC1 none 5 = some ([volA1, volB1, volA2], 3)
    ∧ volA1.id = volA2.id
    ∧ ¬ (([volA1, volB1, volA2].map Volume.id).Nodup) := by
  refine ⟨by decide, by decide, by decide⟩

/-- Claim C1 (amended): the dedup applied to the accumulated sequence removes
only ADJACENT duplicates (Volume equality being id equality).  For every
accumulated sequence in which all repeats of an id are adjacent, the
deduplicated sequence contains each id exactly once (no duplicate ids, no id
lost) and the element kept for each id is the first occurrence, hence the
first occurrence's title and date are retained. -/
theorem C1_dedup_adjacent_only :
    ∀ l : List Volume, GroupedVols l →
      ((dedupRust l).map Volume.id).Nodup
      ∧ (∀ v ∈ l, ∃ w ∈ dedupRust l, w.id = v.id)
      ∧ (∀ w ∈ dedupRust l, l.find? (fun x => decide (x.id = w.id)) = some w) := by
  intro l hg
  cases l with
  | nil => exact ⟨by simp [dedupRust], by simp, by simp [dedupRust]⟩
  | cons a rest =>
    obtain ⟨s1, s2, s3⟩ := dedupRustGo_spec rest a hg
    have hdd : dedupRust (a :: rest) = a :: dedupRustGo a rest := rfl
    rw [hdd]
    refine ⟨s1, s2, ?_⟩
    intro w hw
    rcases (by simpa using hw : w = a ∨ w ∈ dedupRustGo a rest) with rfl | hw'
    · exact List.find?_cons_of_pos _ (by simp)
    · exact (s3 w hw').2

theorem C1_dedup_adjacent_only_witness :
    ((dedupRust [volA1, volA2, volB1]).map Volume.id).Nodup :=
  (C1_dedup_adjacent_only [volA1, volA2, volB1]
    (GroupedVols.consEq _ _ _ (by decide)
      (GroupedVols.consNe _ _ _ (by decide) (by decide) (GroupedVols.single _)))).1

theorem loop_go_zero (pagesf : Nat → List Volume) (limit : Option Nat) :
    ∀ (fuel page : Nat) (acc res : List Volume) (k : Nat),
      process_member_loop_go pagesf limit fuel page false 0 acc = some (res, k) →
      res = acc ∧ k = page - 1 := by
  intro fuel page acc res k h
  cases fuel with
  | zero => exact absurd h (by simp [process_member_loop_go])
  | succ n =>
    simp only [process_member_loop_go] at h
    rw [if_neg (by simp)] at h
    simp only [Option.some.injEq, Prod.mk.injEq] at h
    exact ⟨h.1.symm, h.2.symm⟩

theorem loop_go_k_ge (pagesf : Nat → List Volume) (limit : Option Nat) :
    ∀ (fuel page : Nat) (fI : Bool) (nf : Nat) (acc res : List Volume) (k : Nat),
      process_member_loop_go pagesf limit fuel page fI nf acc = some (res, k) →
      page - 1 ≤ k := by
  intro fuel
  induction fuel with
  | zero =>
    intro page fI nf acc res k h
    exact absurd h (by simp [process_member_loop_go])
  | succ n ih =>
    intro page fI nf acc res k h
    simp only [process_member_loop_go] at h
    split at h
    · split at h
      · split at h
        · simp only [Option.some.injEq, Prod.mk.injEq] at h
          omega
        · have := ih (page + 1) false (pagesf page).length _ res k h
          omega
      · have := ih (page + 1) false (pagesf page).length _ res k h
        omega
    · simp only [Option.some.injEq, Prod.mk.injEq] at h
      omega

theorem loop_go_first (pagesf : Nat → List Volume) (limit : Option Nat) :
    ∀ (fuel page : Nat) (nf : Nat) (acc res : List Volume) (k : Nat),
      process_member_loop_go pagesf limit fuel page true nf acc = some (res, k) →
      page ≤ k := by
  intro fuel page nf acc res k h
  cases fuel with
  | zero => exact absurd h (by simp [process_member_loop_go])
  | succ n =>
    simp only [process_member_loop_go] at h
    split at h
    · split at h
      · split at h
        · simp only [Option.some.injEq, Prod.mk.injEq] at h
          omega
        · have := loop_go_k_ge pagesf _ n (page + 1) false (pagesf page).length _ res k h
          omega
      · have := loop_go_k_ge pagesf _ n (page + 1) false (pagesf page).length _ res k h
        omega
    · next hcond => exact absurd (by simp) hcond

theorem loop_go_nonempty (pagesf : Nat → List Volume) (limit : Option Nat) :
    ∀ (fuel page : Nat) (fI : Bool) (nf : Nat) (acc res : List Volume) (k : Nat),
      process_member_loop_go pagesf limit fuel page fI nf acc = some (res, k) →
      ∀ j, page ≤ j → j < k → pagesf j ≠ [] := by
  intro fuel
  induction fuel with
  | zero =>
    intro page fI nf acc res k h
    exact absurd h (by simp [process_member_loop_go])
  | succ n ih =>
    intro page fI nf acc res k h
    have hrec : process_member_loop_go pagesf limit n (page + 1) false (pagesf page).length
        (dedupRust (acc ++ pagesf page)) = some (res, k) →
        ∀ j, page ≤ j → j < k → pagesf j ≠ [] := by
      intro hr j hj1 hj2
      by_cases hj : page + 1 ≤ j
      · exact ih (page + 1) false (pagesf page).length _ res k hr j hj hj2
      · have hjeq : j = page := by omega
        intro hemp
        have hlen : (pagesf page).length = 0 := by
          rw [← hjeq, hemp]
          rfl
        rw [hlen] at hr
        obtain ⟨_, hk⟩ := loop_go_zero pagesf limit n (page + 1) _ res k hr
        omega
    simp only [process_member_loop_go] at h
    split at h
    · split at h
      · split at h
        · simp only [Option.some.injEq, Prod.mk.injEq] at h
          intro j hj1 hj2
          omega
        · exact hrec h
      · exact hrec h
    · simp only [Option.some.injEq, Prod.mk.injEq] at h
      intro j hj1 hj2
      omega

theorem loop_go_last_empty (pagesf : Nat → List Volume) :
    ∀ (fuel page : Nat) (fI : Bool) (nf : Nat) (acc res : List Volume) (k : Nat),
      process_member_loop_go pagesf none fuel page fI nf acc = some (res, k) →
      (fI = true ∨ 0 < nf) → pagesf k = [] ∧ page ≤ k := by
  intro fuel
  induction fuel with
  | zero =>
    intro page fI nf acc res k h
    exact absurd h (by simp [process_member_loop_go])
  | succ n ih =>
    intro page fI nf acc res k h hc
    simp only [process_member_loop_go] at h
    split at h
    · by_cases hpv : pagesf page = []
      · have hlen : (pagesf page).length = 0 := by rw [hpv]; rfl
        rw [hlen] at h
        obtain ⟨_, hk⟩ := loop_go_zero pagesf none n (page + 1) _ res k h
        have hk' : k = page := by omega
        rw [hk']
        exact ⟨hpv, by omega⟩
      · have hlen : 0 < (pagesf page).length := by
          cases hq : pagesf page with
          | nil => exact absurd hq hpv
          | cons a t => simp [hq]
        obtain ⟨h1, h2⟩ := ih (page + 1) false (pagesf page).length _ res k h (Or.inr hlen)
        exact ⟨h1, by omega⟩
    · next hcond => exact absurd hc hcond

def mkVolC7 (n : Nat) : Volume :=
  ⟨some "t".toList, some "20230101".toList, (toString n).toList⟩

/-- Mocked listing endpoint for the pagination scenario: pages 1-3 return 10
distinct volumes each, page 4 and beyond return none. -/
def pagesC7 : Nat → List Volume := fun p =>
  if p = 1 then (List.range 10).map mkVolC7
  else if p = 2 then (List.range 10).map (fun i => mkVolC7 (10 + i))
  else if p = 3 then (List.range 10).map (fun i => mkVolC7 (20 + i))
  else []

/-- Claim C7: on any successful discovery run the first listing page is always
fetched (the last fetched page number is at least 1), every page before the
last fetched one returned at least one volume, with no limit the loop stops
exactly on the first empty page, and on the mocked 10,10,10,0 endpoint
discovery fetches exactly 4 pages and accumulates exactly 30 Volumes before
the title filter. -/
theorem C7_pagination :
    (∀ (pagesf : Nat → List Volume) (limit : Option Nat) (fuel : Nat)
      (res : List Volume) (k : Nat),
      process_member_loop pagesf limit fuel = some (res, k) → 1 ≤ k)
    ∧ (∀ (pagesf : Nat → List Volume) (limit : Option Nat) (fuel : Nat)
      (res : List Volume) (k : Nat),
      process_member_loop pagesf limit fuel = some (res, k) →
      ∀ j, 1 ≤ j → j < k → pagesf j ≠ [])
    ∧ (∀ (pagesf : Nat → List Volume) (fuel : Nat) (res : List Volume) (k : Nat),
      process_member_loop pagesf none fuel = some (res, k) → pagesf k = [])
    ∧ (process_member_loop pagesC7 none 10).map (fun p => (p.1.length, p.2)) = some (30, 4) := by
  refine ⟨?_, ?_, ?_, by decide⟩
  · intro pagesf limit fuel res k h
    exact loop_go_first pagesf limit fuel 1 0 [] res k h
  · intro pagesf limit fuel res k h
    exact loop_go_nonempty pagesf limit fuel 1 true 0 [] res k h
  · intro pagesf fuel res k h
    exact (loop_go_last_empty pagesf fuel 1 true 0 [] res k h (Or.inl rfl)).1

/-- All-empty listing endpoint used to witness the pagination theorem. -/
def pagesEmptyW : Nat → List Volume := fun _ => []

theorem C7_pagination_witness : 1 ≤ 1 ∧ pagesEmptyW 1 = [] :=
  ⟨C7_pagination.1 pagesEmptyW none 2 [] 1 (by decide),
   C7_pagination.2.2.1 pagesEmptyW 2 [] 1 (by decide)⟩

theorem filterMap_get?_range {α : Type} : ∀ (l : List α),
    (List.range l.length).filterMap l.get? = l := by
  intro l
  induction l with
  | nil => simp
  | cons a t ih =>
    rw [List.length_cons, List.range_succ_eq_map]
    have hcomp : (a :: t).get? ∘ Nat.succ = t.get? := funext fun j => rfl
    simp only [List.filterMap_cons, List.filterMap_map, hcomp]
    rw [show (a :: t).get? 0 = some a from rfl]
    rw [ih]

/-- Claim C8: the asset at zero-based ordinal i is assigned the filename
date-id-title-img(i+1 zero-padded to 3)(lowercased extension of its URL,
dot included, or empty), the whole assignment being fixed by the enumerate
step before any transfer starts; and for every completion order of the
concurrent transfers, the multiset of performed writes equals the assigned
task list, so the filename-to-URL association is independent of completion
order. -/
theorem C8_filename_determinism :
    ∀ (date id title : List Char) (imgs : List (List Char)) (i : Nat) (h : i < imgs.length)
      (order : List Nat), order.Perm (List.range imgs.length) →
      (assignedTasks date id title imgs).get? i =
        some (date ++ '-' :: (id ++ '-' :: (title ++ '-' :: 'i' :: 'm' :: 'g' ::
          (pad3 (i + 1) ++ extract_extension (imgs.get ⟨i, h⟩)))), imgs.get ⟨i, h⟩)
      ∧ (completedWrites (assignedTasks date id title imgs) order).Perm
          (assignedTasks date id title imgs) := by
  intro date id title imgs i h order hperm
  constructor
  · rw [assignedTasks, List.get?_map, List.get?_enum, List.get?_eq_get h]
    simp [assetFilename]
  · rw [completedWrites]
    have hlen : (assignedTasks date id title imgs).length = imgs.length := by
      simp [assignedTasks]
    have h1 : (order.filterMap (assignedTasks date id title imgs).get?).Perm
        ((List.range imgs.length).filterMap (assignedTasks date id title imgs).get?) :=
      hperm.filterMap _
    rw [← hlen, filterMap_get?_range] at h1
    exact h1

def imgsC8 : List (List Char) := ["u/a.JPG".toList, "u/b.png".toList]

theorem C8_filename_determinism_witness :
    (completedWrites (assignedTasks "d".toList "7".toList "t".toList imgsC8) [1, 0]).Perm
      (assignedTasks "d".toList "7".toList "t".toList imgsC8) :=
  (C8_filename_determinism "d".toList "7".toList "t".toList imgsC8 0 (by decide) [1, 0]
    (by decide)).2

theorem splitFirst_not_mem (sep : Char) : ∀ l : List Char, sep ∉ (splitFirst sep l).1 := by
  intro l
  induction l with
  | nil => simp [splitFirst]
  | cons c rest ih =>
    rw [splitFirst]
    by_cases h : c = sep
    · rw [if_pos h]
      simp
    · rw [if_neg h]
      show sep ∉ c :: (splitFirst sep rest).1
      simp only [List.mem_cons]
      rintro (he | hm)
      · exact h he.symm
      · exact ih hm

theorem splitFirst_eq_append (sep : Char) : ∀ (l a b : List Char),
    splitFirst sep l = (a, some b) → l = a ++ sep :: b := by
  intro l
  induction l with
  | nil =>
    intro a b h
    simp [splitFirst] at h
  | cons c rest ih =>
    intro a b h
    rw [splitFirst] at h
    by_cases hc : c = sep
    · rw [if_pos hc] at h
      simp only [Prod.mk.injEq, Option.some.injEq] at h
      rw [← h.1, ← h.2, hc]
      simp
    · rw [if_neg hc] at h
      have h' : (c :: (splitFirst sep rest).1, (splitFirst sep rest).2) = (a, some b) := h
      simp only [Prod.mk.injEq] at h'
      have hrest : splitFirst sep rest = ((splitFirst sep rest).1, some b) := by
        rw [← h'.2]
      have hr := ih (splitFirst sep rest).1 b hrest
      rw [← h'.1]
      show c :: rest = (c :: (splitFirst sep rest).1) ++ sep :: b
      rw [List.cons_append]
      exact congrArg (List.cons c) hr

theorem urlParseTail_path (pre r : List Char) (pu : Url)
    (h : urlParseTail pre r = some pu) : pu.path ≠ [] ∧ '?' ∉ pu.path := by
  simp only [urlParseTail] at h
  split at h
  · exact absurd h (by simp)
  · simp only [Option.some.injEq] at h
    subst h
    cases hhp : (splitFirst '/' (splitFirst '?' r).1).2 with
    | none => simp
    | some p =>
      have hps : (splitFirst '?' r).1 =
          (splitFirst '/' (splitFirst '?' r).1).1 ++ '/' :: p := by
        refine splitFirst_eq_append '/' (splitFirst '?' r).1 _ p ?_
        rw [← hhp]
      refine ⟨by simp, ?_⟩
      intro hqm
      have hqm' : '?' ∈ ('/' :: p) := by simpa using hqm
      rcases List.mem_cons.mp hqm' with he | hmp
      · exact absurd he (by decide)
      · have hmem : '?' ∈ (splitFirst '?' r).1 := by
          rw [hps]
          simp [hmp]
        exact splitFirst_not_mem '?' r hmem

theorem urlParse?_path (u : List Char) (pu : Url) (h : urlParse? u = some pu) :
    pu.path ≠ [] ∧ '?' ∉ pu.path := by
  simp only [urlParse?] at h
  split at h
  · split at h
    · split at h
      · exact urlParseTail_path _ _ pu h
      · exact absurd h (by simp)
    · exact absurd h (by simp)
  · exact absurd h (by simp)

theorem dropWhile_qm_eq_self (l : List Char) (h : '?' ∉ l) :
    l.dropWhile (fun c => c = '?') = l := by
  cases l with
  | nil => simp
  | cons c cs =>
    rw [List.dropWhile_cons, if_neg]
    simp only [decide_eq_true_eq]
    intro hc
    exact h (by rw [← hc]; exact List.mem_cons_self c cs)

theorem trim_qm_append (A : List Char) (hA : A ≠ []) (hqA : '?' ∉ A) (B : List Char) :
    ((B ++ A ++ ['?']).reverse.dropWhile (fun c => c = '?')).reverse = B ++ A := by
  rw [List.reverse_append]
  show (((['?'] : List Char) ++ (B ++ A).reverse).dropWhile (fun c => c = '?')).reverse = B ++ A
  rw [show (['?'] : List Char) ++ (B ++ A).reverse = '?' :: (B ++ A).reverse from rfl]
  rw [List.dropWhile_cons, if_pos (by simp)]
  rw [List.reverse_append, List.dropWhile_append]
  rw [dropWhile_qm_eq_self A.reverse (by simpa using hqA)]
  rw [if_neg (by simp [hA])]
  simp

theorem stripQueryUrl_eq_noquery (u : List Char) (pu : Url) (h : urlParse? u = some pu) :
    stripQueryUrl pu = urlToString { pu with query := none } := by
  obtain ⟨hne, hq⟩ := urlParse?_path u pu h
  rw [stripQueryUrl]
  have hshape : urlToString { pu with query := some [] } =
      ((pu.scheme ++ ':' :: '/' :: '/' :: pu.host) ++ pu.path) ++ ['?'] := by
    rw [urlToString]
    simp
  rw [hshape]
  have := trim_qm_append pu.path hne hq (pu.scheme ++ ':' :: '/' :: '/' :: pu.host)
  rw [show (pu.scheme ++ ':' :: '/' :: '/' :: pu.host) ++ pu.path ++ ['?'] =
      ((pu.scheme ++ ':' :: '/' :: '/' :: pu.host) ++ pu.path) ++ ['?'] from by simp] at this
  rw [this, urlToString]
  simp

def evilUrl : List Char := "https://evil.com/post-phinf.pstatic.net/a.jpg".toList

def imgEvil : Img := ⟨true, false, some evilUrl⟩

/-- Claim C6 counterexample: a URL whose host is evil.com but whose PATH
contains the trusted substring passes the contains check of line 417 and is
accepted, so acceptance is not restricted to URLs pointing at the trusted
asset host. -/
theorem C6_counterexample :
    extract_images [imgEvil] = [evilUrl]
    ∧ (urlParse? evilUrl).map Url.host = some "evil.com".toList
    ∧ "evil.com".toList ≠ trustedHost := by
  refine ⟨by decide, by decide, by decide⟩

/-- Claim C6 (amended): the primary selector family is tried first and the
secondary is used exactly when the primary yields zero results; every output
originates, in document order, from an element whose data-src attribute
CONTAINS the trusted-host substring somewhere (not necessarily as its host)
and parses as a URL, and equals that URL serialized with its query string
removed; extraction distributes over document concatenation, preserving
order. -/
theorem C6_extract_images :
    (∀ elems : List Img, find_images elems (fun e => e.seMediaImage) ≠ [] →
      extract_images elems = find_images elems (fun e => e.seMediaImage))
    ∧ (∀ elems : List Img, find_images elems (fun e => e.seMediaImage) = [] →
      extract_images elems = find_images elems (fun e => e.imgAttachedfile))
    ∧ (∀ (elems : List Img) (v : List Char), v ∈ extract_images elems →
      ∃ i ∈ elems, ∃ u, i.dataSrc = some u ∧ containsSub trustedHost u = true
        ∧ ∃ pu, urlParse? u = some pu ∧ v = stripQueryUrl pu
          ∧ v = urlToString { pu with query := none })
    ∧ (∀ (xs ys : List Img) (sel : Img → Bool),
      find_images (xs ++ ys) sel = find_images xs sel ++ find_images ys sel) := by
  have key : ∀ (elems : List Img) (sel : Img → Bool) (v : List Char),
      v ∈ find_images elems sel →
      ∃ i ∈ elems, ∃ u, i.dataSrc = some u ∧ containsSub trustedHost u = true
        ∧ ∃ pu, urlParse? u = some pu ∧ v = stripQueryUrl pu
          ∧ v = urlToString { pu with query := none } := by
    intro elems sel v hmem
    rw [find_images, List.mem_filterMap] at hmem
    obtain ⟨e, he, hbind⟩ := hmem
    have he' : e ∈ elems := List.mem_of_mem_filter he
    rw [Option.bind_eq_some] at hbind
    obtain ⟨u, hu, hacc⟩ := hbind
    rw [acceptUrl?] at hacc
    by_cases hc : containsSub trustedHost u = true
    · rw [if_pos hc] at hacc
      rw [Option.map_eq_some'] at hacc
      obtain ⟨pu, hpu, hstrip⟩ := hacc
      exact ⟨e, he', u, hu, hc, pu, hpu, hstrip.symm,
        hstrip.symm.trans (stripQueryUrl_eq_noquery u pu hpu)⟩
    · rw [if_neg hc] at hacc
      exact absurd hacc (by simp)
  refine ⟨?_, ?_, ?_, ?_⟩
  · intro elems h
    rw [extract_images, if_neg (by simpa [List.isEmpty_eq_true] using h)]
  · intro elems h
    rw [extract_images, if_pos (by simpa [List.isEmpty_eq_true] using h)]
  · intro elems v hv
    rw [extract_images] at hv
    by_cases hr : (find_images elems (fun e => e.seMediaImage)).isEmpty = true
    · rw [if_pos hr] at hv
      exact key elems _ v hv
    · rw [if_neg hr] at hv
      exact key elems _ v hv
  · intro xs ys sel
    rw [find_images, find_images, find_images, List.filter_append, List.filterMap_append]

def imgGoodC6 : Img := ⟨true, false, some "https://post-phinf.pstatic.net/x/a.jpg?type=w1200".toList⟩

theorem C6_extract_images_witness :
    extract_images [imgGoodC6] = find_images [imgGoodC6] (fun e => e.seMediaImage) :=
  C6_extract_images.1 [imgGoodC6] (by decide)

theorem writes_are_writeFile (temp : List Char)
    (tasks : List (List Char × Except NetErr (List Char))) :
    ∀ op ∈ tasks.filterMap (fun t =>
      match t.2 with
      | .ok _ => some (FsOp.writeFile (pathJoin temp t.1))
      | .error _ => none), ∃ p, op = FsOp.writeFile p := by
  intro op hop
  rw [List.mem_filterMap] at hop
  obtain ⟨t, ht, heq⟩ := hop
  cases h2 : t.2 with
  | ok b =>
    rw [h2] at heq
    simp at heq
    exact ⟨pathJoin temp t.1, heq.symm⟩
  | error e =>
    rw [h2] at heq
    simp at heq

theorem applyOps_append (dirs : List (List Char)) (l1 l2 : List FsOp) :
    applyOps dirs (l1 ++ l2) = applyOps (applyOps dirs l1) l2 :=
  List.foldl_append applyOp dirs l1 l2

theorem applyOps_writes : ∀ (ws : List FsOp) (dirs : List (List Char)),
    (∀ op ∈ ws, ∃ p, op = FsOp.writeFile p) → applyOps dirs ws = dirs := by
  intro ws
  induction ws with
  | nil =>
    intro dirs _
    rfl
  | cons w rest ih =>
    intro dirs hall
    obtain ⟨p, hp⟩ := hall w (by simp)
    rw [hp]
    show applyOps dirs rest = dirs
    exact ih dirs (fun op hop => hall op (by simp [hop]))

/-- Claim C3: in the download-and-commit phase, if any asset transfer fails
the phase reports failure, the filesystem afterwards equals the starting one
at every final-form path (in particular no directory exists at the final
destination, and no operation of the trace even names it); if all transfers
succeed the phase reports success, the final destination comes into existence,
the only operation materializing the final path is the single rename, and the
whole trace is the temp creation, the file writes, then copy-rename-cleanup,
so the rename happens only after all downloads.  The freshness of the
temporary directory name is the hypothesis set. -/
theorem C3_atomic_commit :
    ∀ (temp base finalPath : List Char) (dirs : List (List Char))
      (tasks : List (List Char × Except NetErr (List Char))),
      finalPath ≠ temp → finalPath ∉ dirs → pathJoin base (baseName temp) ≠ finalPath →
      ((tasks.any (fun t => exceptIsErr t.2) = true →
        (download_phase temp base finalPath tasks).1 = false
        ∧ applyOps dirs (download_phase temp base finalPath tasks).2 = dirs
        ∧ finalPath ∉ applyOps dirs (download_phase temp base finalPath tasks).2
        ∧ ∀ op ∈ (download_phase temp base finalPath tasks).2, createsDir op ≠ some finalPath)
      ∧ (tasks.any (fun t => exceptIsErr t.2) = false →
        (download_phase temp base finalPath tasks).1 = true
        ∧ applyOps dirs (download_phase temp base finalPath tasks).2 = finalPath :: dirs
        ∧ (download_phase temp base finalPath tasks).2.filter
            (fun op => decide (createsDir op = some finalPath)) =
          [FsOp.renameDir (pathJoin base (baseName temp)) finalPath]
        ∧ ∃ ws, (download_phase temp base finalPath tasks).2 =
            FsOp.mkTempDir temp :: (ws ++
              [FsOp.copyDirInto temp base,
              FsOp.renameDir (pathJoin base (baseName temp)) finalPath,
              FsOp.removeDir temp])
          ∧ ∀ op ∈ ws, ∃ p, op = FsOp.writeFile p)) := by
  intro temp base finalPath dirs tasks hne hnin hjoin
  constructor
  · intro herr
    have hdp : download_phase temp base finalPath tasks =
        (false, FsOp.mkTempDir temp :: ((tasks.filterMap (fun t =>
          match t.2 with
          | .ok _ => some (FsOp.writeFile (pathJoin temp t.1))
          | .error _ => none)) ++ [FsOp.removeDir temp])) := by
      rw [download_phase, if_pos herr]
    rw [hdp]
    have hops : applyOps dirs (FsOp.mkTempDir temp :: ((tasks.filterMap (fun t =>
        match t.2 with
        | .ok _ => some (FsOp.writeFile (pathJoin temp t.1))
        | .error _ => none)) ++ [FsOp.removeDir temp])) = dirs := by
      show applyOps (temp :: dirs) ((tasks.filterMap (fun t =>
        match t.2 with
        | .ok _ => some (FsOp.writeFile (pathJoin temp t.1))
        | .error _ => none)) ++ [FsOp.removeDir temp]) = dirs
      rw [applyOps_append,
        applyOps_writes _ (temp :: dirs) (writes_are_writeFile temp tasks)]
      show (temp :: dirs).erase temp = dirs
      exact List.erase_cons_head temp dirs
    refine ⟨rfl, hops, by rw [hops]; exact hnin, ?_⟩
    intro op hop
    rcases (by simpa using hop :
        op = FsOp.mkTempDir temp
        ∨ op ∈ tasks.filterMap (fun t =>
            match t.2 with
            | .ok _ => some (FsOp.writeFile (pathJoin temp t.1))
            | .error _ => none)
        ∨ op = FsOp.removeDir temp) with hop1 | hop2 | hop3
    · rw [hop1]
      simp [createsDir]
      exact fun he => hne he.symm
    · obtain ⟨p, hp⟩ := writes_are_writeFile temp tasks op hop2
      rw [hp]
      simp [createsDir]
    · rw [hop3]
      simp [createsDir]
  · intro hok
    have hdp : download_phase temp base finalPath tasks =
        (true, FsOp.mkTempDir temp :: ((tasks.filterMap (fun t =>
          match t.2 with
          | .ok _ => some (FsOp.writeFile (pathJoin temp t.1))
          | .error _ => none)) ++
          [FsOp.copyDirInto temp base,
           FsOp.renameDir (pathJoin base (baseName temp)) finalPath,
           FsOp.removeDir temp])) := by
      rw [download_phase, if_neg (by simp [hok])]
    rw [hdp]
    have hW : (tasks.filterMap (fun t =>
        match t.2 with
        | .ok _ => some (FsOp.writeFile (pathJoin temp t.1))
        | .error _ => none)).filter (fun op => decide (createsDir op = some finalPath)) = [] := by
      rw [List.filter_eq_nil]
      intro op hop
      obtain ⟨p, hp⟩ := writes_are_writeFile temp tasks op hop
      rw [hp]
      simp [createsDir]
    have hops : applyOps dirs (FsOp.mkTempDir temp :: ((tasks.filterMap (fun t =>
        match t.2 with
        | .ok _ => some (FsOp.writeFile (pathJoin temp t.1))
        | .error _ => none)) ++
        [FsOp.copyDirInto temp base,
         FsOp.renameDir (pathJoin base (baseName temp)) finalPath,
         FsOp.removeDir temp])) = finalPath :: dirs := by
      show applyOps (temp :: dirs) ((tasks.filterMap (fun t =>
        match t.2 with
        | .ok _ => some (FsOp.writeFile (pathJoin temp t.1))
        | .error _ => none)) ++
        [FsOp.copyDirInto temp base,
         FsOp.renameDir (pathJoin base (baseName temp)) finalPath,
         FsOp.removeDir temp]) = finalPath :: dirs
      rw [applyOps_append,
        applyOps_writes _ (temp :: dirs) (writes_are_writeFile temp tasks)]
      show (finalPath ::
        ((pathJoin base (baseName temp) :: temp :: dirs).erase
          (pathJoin base (baseName temp)))).erase temp = finalPath :: dirs
      rw [List.erase_cons_head]
      rw [List.erase_cons]
      rw [if_neg (by simp; exact hne)]
      rw [List.erase_cons_head]
    refine ⟨rfl, hops, ?_, ?_⟩
    · rw [List.filter_cons, List.filter_append, hW]
      rw [if_neg (by simp [createsDir]; exact fun he => hne he.symm)]
      rw [List.filter_cons, if_neg (by simp [createsDir]; exact hjoin)]
      rw [List.filter_cons, if_pos (by simp [createsDir])]
      rw [List.filter_cons, if_neg (by simp [createsDir])]
      rfl
    · exact ⟨_, rfl, writes_are_writeFile temp tasks⟩

def tasksC3 : List (List Char × Except NetErr (List Char)) :=
  [("f1".toList, .ok "b".toList), ("f2".toList, .error .network)]

theorem C3_atomic_commit_witness :
    (download_phase "/tmp/x1".toList "posts".toList "posts/20230101-7-t/".toList tasksC3).1 = false
    ∧ "posts/20230101-7-t/".toList ∉ applyOps []
        (download_phase "/tmp/x1".toList "posts".toList "posts/20230101-7-t/".toList tasksC3).2 := by
  have h := C3_atomic_commit "/tmp/x1".toList "posts".toList "posts/20230101-7-t/".toList []
    tasksC3 (by decide) (by decide) (by decide)
  obtain ⟨h1, h2, h3, h4⟩ := h.1 (by decide)
  exact ⟨h1, h3⟩

/-- Claim C4 (amended): if a run of download_np completes successfully, a
second run on the same Volume against the resulting filesystem also completes
successfully, changes nothing, and performs at most one network request (the
detail-page fetch; never any asset transfer); it performs zero requests
exactly when the skip check succeeds against the resulting filesystem, that
is when the Volume's own title and purely-numeric date name the directory the
first run left behind; and directories stay duplicate-free, so no second
directory for the same (date, id, title) is ever produced. -/
theorem C4_idempotent :
    ∀ (env : Env) (base : List Char) (vol : Volume) (dirs : List (List Char)),
      (download_np env base vol dirs).outcome = .done →
      ((download_np env base vol (download_np env base vol dirs).dirs).outcome = .done
      ∧ (download_np env base vol (download_np env base vol dirs).dirs).dirs =
          (download_np env base vol dirs).dirs
      ∧ (download_np env base vol (download_np env base vol dirs).dirs).requests ≤ 1
      ∧ ((download_np env base vol (download_np env base vol dirs).dirs).requests = 0 ↔
          skipCheck base vol (download_np env base vol dirs).dirs = true)
      ∧ (dirs.Nodup → (download_np env base vol (download_np env base vol dirs).dirs).dirs.Nodup)) := by
  intro env base vol dirs hdone
  by_cases h1 : skipCheck base vol dirs = true
  · have e1 : download_np env base vol dirs = ⟨.done, dirs, 0⟩ := by
      simp [download_np, h1]
    have e2 : download_np env base vol (download_np env base vol dirs).dirs =
        ⟨.done, dirs, 0⟩ := by
      rw [e1]
      simp [download_np, h1]
    refine ⟨by rw [e2], by rw [e2, e1], by simp [e2], by rw [e2, e1]; simp [h1],
      fun hnd => ?_⟩
    rw [e2]
    exact hnd
  · rw [Bool.not_eq_true] at h1
    cases hdf : env.detailFetch vol.id with
    | error e =>
      have e1 : download_np env base vol dirs = ⟨.errored, dirs, 1⟩ := by
        simp [download_np, h1, hdf]
      rw [e1] at hdone
      simp at hdone
    | ok doc =>
      cases hdate : extract_date doc.dateContent with
      | panicked =>
        have e1 : download_np env base vol dirs = ⟨.panicked, dirs, 1⟩ := by
          simp [download_np, h1, hdf, hdate]
        rw [e1] at hdone
        simp at hdone
      | parseErr =>
        have e1 : download_np env base vol dirs = ⟨.errored, dirs, 1⟩ := by
          simp [download_np, h1, hdf, hdate]
        rw [e1] at hdone
        simp at hdone
      | ok date =>
        cases htitle : extract_title doc.titleContent with
        | none =>
          have e1 : download_np env base vol dirs = ⟨.errored, dirs, 1⟩ := by
            simp [download_np, h1, hdf, hdate, htitle]
          rw [e1] at hdone
          simp at hdone
        | some title =>
          by_cases h2 : volPath base date vol.id title ∈ dirs
          · have e1 : download_np env base vol dirs = ⟨.done, dirs, 1⟩ := by
              simp [download_np, h1, hdf, hdate, htitle, h2]
            have e2 : download_np env base vol (download_np env base vol dirs).dirs =
                ⟨.done, dirs, 1⟩ := by
              rw [e1]
              simp [download_np, h1, hdf, hdate, htitle, h2]
            refine ⟨by rw [e2], by rw [e2, e1], by simp [e2], by rw [e2, e1]; simp [h1],
              fun hnd => ?_⟩
            rw [e2]
            exact hnd
          · by_cases h3 : (extract_images doc.body).isEmpty = true
            · have e1 : download_np env base vol dirs = ⟨.done, dirs, 1⟩ := by
                simp [download_np, h1, hdf, hdate, htitle, h2, h3]
              have e2 : download_np env base vol (download_np env base vol dirs).dirs =
                  ⟨.done, dirs, 1⟩ := by
                rw [e1]
                simp [download_np, h1, hdf, hdate, htitle, h2, h3]
              refine ⟨by rw [e2], by rw [e2, e1], by simp [e2], by rw [e2, e1]; simp [h1],
                fun hnd => ?_⟩
              rw [e2]
              exact hnd
            · rw [Bool.not_eq_true] at h3
              by_cases h4 : ((extract_images doc.body).map env.assetFetch).any exceptIsErr = true
              · have e1 : download_np env base vol dirs =
                    ⟨.errored, dirs, 1 + (extract_images doc.body).length⟩ := by
                  simp [download_np, h1, hdf, hdate, htitle, h2, h3, h4]
                rw [e1] at hdone
                simp at hdone
              · rw [Bool.not_eq_true] at h4
                have e1 : download_np env base vol dirs =
                    ⟨.done, volPath base date vol.id title :: dirs,
                      1 + (extract_images doc.body).length⟩ := by
                  simp [download_np, h1, hdf, hdate, htitle, h2, h3, h4]
                by_cases h5 : skipCheck base vol (volPath base date vol.id title :: dirs) = true
                · have e2 : download_np env base vol (download_np env base vol dirs).dirs =
                      ⟨.done, volPath base date vol.id title :: dirs, 0⟩ := by
                    rw [e1]
                    simp [download_np, h5]
                  refine ⟨by rw [e2], by rw [e2, e1], by simp [e2],
                    by rw [e2, e1]; simp [h5], fun hnd => ?_⟩
                  rw [e2]
                  exact List.nodup_cons.mpr ⟨h2, hnd⟩
                · rw [Bool.not_eq_true] at h5
                  have e2 : download_np env base vol (download_np env base vol dirs).dirs =
                      ⟨.done, volPath base date vol.id title :: dirs, 1⟩ := by
                    rw [e1]
                    simp [download_np, h5, hdf, hdate, htitle]
                  refine ⟨by rw [e2], by rw [e2, e1], by simp [e2],
                    by rw [e2, e1]; simp [h5], fun hnd => ?_⟩
                  rw [e2]
                  exact List.nodup_cons.mpr ⟨h2, hnd⟩

def imgC4 : Img := ⟨true, false, some "https://post-phinf.pstatic.net/x/a.jpg".toList⟩

/-- Detail page whose canonical title B disagrees with the discovery title A
carried by volC4 (dates agree). -/
def docC4 : Doc := ⟨some "2023-01-01T00:00:00".toList, some "B".toList, [imgC4]⟩

def envC4 : Env := ⟨fun _ => .ok docC4, fun _ => .ok "bytes".toList⟩

def volC4 : Volume := ⟨some "A".toList, some "20230101".toList, "7".toList⟩

/-- Claim C4 counterexample: volC4 carries both a title and a purely numeric
date, the first run completes (committing under the canonical title B from
the detail page), yet the second run still performs a network request,
because the skip check computes the path from the stale discovery title A. -/
theorem C4_counterexample :
    volC4.title = some "A".toList
    ∧ volC4.date = some "20230101".toList
    ∧ isNumericDate "20230101".toList = true
    ∧ (download_np envC4 "posts".toList volC4 []).outcome = .done
    ∧ (download_np envC4 "posts".toList volC4
        (download_np envC4 "posts".toList volC4 []).dirs).requests ≠ 0 := by
  refine ⟨rfl, rfl, by decide, by decide, by decide⟩

theorem C4_idempotent_witness :
    (download_np envC4 "posts".toList volC4
      (download_np envC4 "posts".toList volC4 []).dirs).outcome = RunOutcome.done :=
  (C4_idempotent envC4 "posts".toList volC4 [] (by decide)).1
